import Mathlib

/-!
Verification of the container-image-manager build engine.

This file embeds the core pure logic of the `manager` package (dependency
graph sorting, template resolution, map merging, alias generation, variant
tag generation, rootfs content detection, and package locking) as Lean
definitions, and proves the documented behavioural properties about them.

Python `dict[str, str]` values are embedded as association lists
`List (String × String)` in insertion order; `dict` lookup is first-match
lookup (keys of a real dict are unique, so this coincides).  Python `None`
becomes `Option.none`, exceptions become `Except` / `Option` results.
-/

namespace Manager

/-- First-match lookup in an association list, the embedding of Python
dict subscripting / `.get`. -/
def lookupStr (m : List (String × String)) (k : String) : Option String :=
  (m.find? (fun p => p.1 == k)).map Prod.snd

/-- `firstSome a b` is `a` when `a` is `some`, else `b` (Python
`a if a is not None else b`). -/
def firstSome (a b : Option String) : Option String :=
  match a with
  | some v => some v
  | none => b

/-- Python truthiness of an optional string: `None` and `""` are falsy. -/
def pyTruthy : Option String → Bool
  | none => false
  | some s => !(s == "")

/-!
## Merger

Modelled from the spec: the file `manager/merger.py` (class `Merger`) is
imported by `manager/models.py` but is not present in the source tree.
Per the spec, `merge(base, override)` returns the map whose keys are the
union of both key sets, with override values winning, keys only in base
passing through unchanged; this is Python `{**base, **override}` on
string-valued dicts, which the embedding reproduces including insertion
order (base keys first, then override-only keys).
-/

/-- The entry that `{**base, **override}` produces for a base entry `p`:
its key, with the override value when the key occurs in the override. -/
def mergeEntry (o : List (String × String)) (p : String × String) :
    String × String :=
  match o.find? (fun q => q.1 == p.1) with
  | some q => (p.1, q.2)
  | none => p

def Merger.merge (base override : List (String × String)) :
    List (String × String) :=
  base.map (mergeEntry override)
  ++ override.filter (fun q => !(base.any (fun p => p.1 == q.1)))

/-!
## TemplateResolver  (`manager/template_resolver.py`)

`resolve(templates_dir, explicit, variant_name)` picks a template path:
explicit first (failing hard when it does not exist), then the
variant-specific convention name, then the default, raising the builtin
`FileNotFoundError` when nothing matches.  The filesystem is embedded as
the existence predicate `ex : String → Bool`; paths are strings joined
with `/` as `pathlib`'s `/` operator does.
-/

/-- The error taxonomy relevant to template resolution: the builtin
`FileNotFoundError` actually raised by the code, and the typed
`TemplateNotFoundError` named by the specification document. -/
inductive PyError where
  | fileNotFoundError (msg : String)
  | templateNotFoundError (msg : String)
deriving DecidableEq

/-- Whether a resolution outcome is a raised `TemplateNotFoundError`. -/
def errIsTemplateNotFound : Except PyError String → Bool
  | .error (.templateNotFoundError _) => true
  | _ => false

/-- Whether a resolution outcome is a raised exception at all. -/
def isRaised : Except PyError String → Bool
  | .error _ => true
  | .ok _ => false

def joinPath (dir name : String) : String := dir ++ "/" ++ name

def TemplateResolver.resolve (ex : String → Bool) (templatesDir : String)
    (explicit variantName : Option String) : Except PyError String :=
  if pyTruthy explicit then
    let e := explicit.getD ""
    let path := joinPath templatesDir e
    if ex path then .ok path
    else .error (.fileNotFoundError
      ("Template not found: explicit template " ++ e
        ++ " does not exist in " ++ templatesDir))
  else
    let tryDefault : Except PyError String :=
      let defaultPath := joinPath templatesDir "Dockerfile.jinja2"
      if ex defaultPath then .ok defaultPath
      else
        let searched :=
          if pyTruthy variantName then
            "Dockerfile." ++ variantName.getD "" ++ ".jinja2, Dockerfile.jinja2"
          else "Dockerfile.jinja2"
        .error (.fileNotFoundError
          ("Template not found. Searched in " ++ templatesDir ++ ": "
            ++ searched))
    if pyTruthy variantName then
      let variantPath :=
        joinPath templatesDir ("Dockerfile." ++ variantName.getD "" ++ ".jinja2")
      if ex variantPath then .ok variantPath else tryDefault
    else tryDefault

/-!
## RootfsMerger  (`manager/rootfs.py`)

`has_rootfs_content(rootfs_paths)` walks every listed rootfs directory
with `rglob("*")` and returns true as soon as it meets a regular file or
a symlink; empty directory trees do not count.  A directory tree is
embedded as `FSEntry`; a listed path is `none` when it does not exist and
`some children` when it is a directory.
-/

/-- A filesystem entry as `Path.rglob("*")` sees it: a regular file, a
symlink (with its raw target), or a directory with children. -/
inductive FSEntry where
  | file (name : String)
  | symlink (name : String) (target : String)
  | dir (name : String) (children : List FSEntry)

mutual

/-- Whether a single entry or anything below it is a file or symlink. -/
def entryHasContent : FSEntry → Bool
  | .file _ => true
  | .symlink _ _ => true
  | .dir _ cs => entriesHaveContent cs

/-- Whether any entry of a listing (or anything below one) is a file or
symlink. -/
def entriesHaveContent : List FSEntry → Bool
  | [] => false
  | e :: es => entryHasContent e || entriesHaveContent es

end

def has_rootfs_content (rootfsPaths : List (Option (List FSEntry))) : Bool :=
  rootfsPaths.any (fun p =>
    match p with
    | none => false
    | some cs => entriesHaveContent cs)

/-- The specification-side predicate: a regular file or symlink occurs
somewhere in the tree. -/
inductive HasFileOrLink : FSEntry → Prop
  | file (n : String) : HasFileOrLink (.file n)
  | symlink (n t : String) : HasFileOrLink (.symlink n t)
  | dirChild (n : String) (cs : List FSEntry) (e : FSEntry) :
      e ∈ cs → HasFileOrLink e → HasFileOrLink (.dir n cs)

/-!
## PackageLocker lock-file reading  (`manager/locking.py`)

`read_lock_file(lock_path, base_ref)` returns the package map recorded
for `base_ref`; with the multi-base format it falls back to the first
recorded base section when the requested ref is absent (or falsy), and
a legacy single-base file returns its flat package map.  The parsed
lock-file state is embedded as `LockData`.
-/

/-- One `bases:` section of a `packages.lock` file:
`{digest, codename, packages}`. -/
structure LockSection where
  digest : Option String
  codename : String
  packages : List (String × String)
deriving DecidableEq

/-- The parsed state of a `packages.lock` file: missing file, file whose
YAML is empty, current multi-base format, or legacy single-base format. -/
inductive LockData where
  | missing
  | empty
  | multiBase (bases : List (String × LockSection))
  | legacy (packages : List (String × String))
deriving DecidableEq

/-- `next(iter(bases.values())).get("packages", {})`: the package map of
the first recorded base section, or empty when there is none. -/
def firstBasePackages : List (String × LockSection) → List (String × String)
  | [] => []
  | p :: _ => p.2.packages

def read_lock_file (dat : LockData) (baseRef : Option String) :
    List (String × String) :=
  match dat with
  | .missing => []
  | .empty => []
  | .multiBase bases =>
    if pyTruthy baseRef then
      match bases.find? (fun p => p.1 == baseRef.getD "") with
      | some p => p.2.packages
      | none => firstBasePackages bases
    else firstBasePackages bases
  | .legacy pkgs => pkgs

/-!
## AliasGenerator

Modelled from the spec: the file `manager/alias_generator.py`
(`generate_semver_aliases`) is imported by `manager/models.py` but is not
present in the source tree.  Per the spec, each tag name is split on `.`;
every proper prefix (component lengths 1..N-1) is a candidate alias; a
candidate matches a tag iff the tag's first components equal the prefix
component-wise (string equality); the alias target is the matching tag
whose full component tuple sorts highest under reverse lexicographic
string comparison component by component, i.e. the maximum in Python's
list-of-strings order; alias keys are registered in first-encounter
order, as dict insertion does.

Strings are compared as Python compares them — lexicographically by code
point — and splitting is Python `str.split(".")`, both embedded on the
character list underlying the string so that they compute.
-/

/-- Python `str.split(sep)` for a one-character separator, on character
lists: `splitOnCharAux sep cs acc` has consumed `acc` of the current
field. -/
def splitOnCharAux (sep : Char) : List Char → List Char → List (List Char)
  | [], acc => [acc]
  | c :: cs, acc =>
    if c = sep then acc :: splitOnCharAux sep cs []
    else splitOnCharAux sep cs (acc ++ [c])

def splitOnChar (sep : Char) (cs : List Char) : List (List Char) :=
  splitOnCharAux sep cs []

/-- The dotted components of a tag name (`tag.name.split(".")`). -/
def tagComponents (t : String) : List (List Char) :=
  splitOnChar '.' t.data

/-- `".".join(components)`. -/
def joinComponents : List (List Char) → List Char
  | [] => []
  | [c] => c
  | c :: cs => c ++ '.' :: joinComponents cs

/-- Generic lexicographic strict comparison of lists under an element
comparison, the shape of Python's sequence `<`. -/
def lexLtBy (lt : α → α → Bool) : List α → List α → Bool
  | [], [] => false
  | [], _ :: _ => true
  | _ :: _, [] => false
  | a :: as, b :: bs =>
    if lt a b then true
    else if lt b a then false
    else lexLtBy lt as bs

/-- Python `<` on single characters (code-point order). -/
def charLt (a b : Char) : Bool := decide (a < b)

/-- Python `<` on strings, as character lists. -/
def charListLt : List Char → List Char → Bool := lexLtBy charLt

/-- Python `<` on lists of strings — the component-tuple order used to
pick alias targets. -/
def componentsLt : List (List Char) → List (List Char) → Bool :=
  lexLtBy charListLt

/-- A candidate alias matches a tag iff the tag's first `len(prefix)`
components are exactly equal, component-wise, to the candidate's. -/
def aliasMatches : List (List Char) → List (List Char) → Bool
  | [], _ => true
  | _ :: _, [] => false
  | x :: xs, y :: ys => x == y && aliasMatches xs ys

/-- The proper dotted prefixes of one tag name (component lengths
`1..N-1`), each joined back into an alias string. -/
def candidatesOfTag (t : String) : List String :=
  (List.range ((tagComponents t).length - 1)).map
    (fun i => String.mk (joinComponents ((tagComponents t).take (i + 1))))

/-- Keep the first occurrence of every alias string, as Python dict key
insertion does. -/
def dedupKeepFirst : List String → List String
  | [] => []
  | x :: xs => x :: (dedupKeepFirst xs).filter (fun y => !(y == x))

/-- The tag whose component tuple is maximal in `componentsLt` order
(ties keep the earlier tag, as Python's stable reverse sort does). -/
def maxTagByComponents : List String → Option String
  | [] => none
  | x :: xs =>
    match maxTagByComponents xs with
    | none => some x
    | some m =>
      if componentsLt (tagComponents x) (tagComponents m) then some m
      else some x

def generate_semver_aliases (tags : List String) : List (String × String) :=
  (dedupKeepFirst (tags.map candidatesOfTag).flatten).filterMap (fun a =>
    match maxTagByComponents
        (tags.filter (fun t =>
          aliasMatches (tagComponents a) (tagComponents t))) with
    | none => none
    | some m => some (a, m))

/-!
## TagGenerator

Modelled from the spec: the file `manager/tag_generator.py`
(`TagGenerator.generate_variant_tags`) is imported by
`manager/models.py` but is not present in the source tree.  Per the
spec, each base tag yields exactly one variant tag named
`base_tag.name + variant.tag_suffix`, with versions
`merge(merge(image_versions, base_tag.versions), variant.versions)`,
variables merged the same way, and rootfs fields taken from the variant
config when explicitly set, else from the base tag.
-/

/-- A resolved tag (`manager/models.py`, dataclass `Tag`). -/
structure Tag where
  name : String
  versions : List (String × String)
  vars : List (String × String)
  rootfs_user : String := "0:0"
  rootfs_copy : Bool := true
deriving DecidableEq

/-- A raw variant configuration (`VariantConfig` of the config schema). -/
structure VariantConfig where
  name : String
  tag_suffix : String
  template : Option String := none
  versions : List (String × String) := []
  vars : List (String × String) := []
  rootfs_user : Option String := none
  rootfs_copy : Option Bool := none
deriving DecidableEq

def TagGenerator.generate_variant_tags (baseTags : List Tag)
    (variant : VariantConfig)
    (imageVersions imageVariables : List (String × String)) : List Tag :=
  baseTags.map (fun bt =>
    { name := bt.name ++ variant.tag_suffix
      versions :=
        Merger.merge (Merger.merge imageVersions bt.versions) variant.versions
      vars :=
        Merger.merge (Merger.merge imageVariables bt.vars) variant.vars
      rootfs_user := variant.rootfs_user.getD bt.rootfs_user
      rootfs_copy := variant.rootfs_copy.getD bt.rootfs_copy })

/-!
## PackageLocker per-base locking  (`manager/locking.py`, `run_lock`)

`run_lock` groups an image's tags by resolved base ref and builds one
lock section per base: the tag part of the base ref (after the first
`:`) is mapped to a distro codename; when the existing lock file already
records a section for the base with a non-empty package map, that
section is reused verbatim with no package-index query; otherwise the
package names extracted from the grouped tags' Dockerfiles are each
resolved against the package index and a fresh section is built.

External effects are embedded as oracles in `LockEnv`; the second
component of each result is the list of package names queried against
the package index (`get_package_version` calls), so "no re-query" is a
provable statement.
-/

/-- Oracles for the external services and filesystem reads `run_lock`
consults while locking one image: `get_ubuntu_codename`,
`get_package_version` (the package-index query), `resolve_image_digest`,
and the package names extracted from the grouped tags' Dockerfiles. -/
structure LockEnv where
  codenameOf : String → Option String
  pkgVersion : String → String → Option String
  digestOf : String → Option String
  packagesOf : List String → List String

/-- `existing_bases[base_ref]` (dict membership plus subscript). -/
def sectionFor (existingBases : List (String × LockSection))
    (baseRef : String) : Option LockSection :=
  (existingBases.find? (fun p => p.1 == baseRef)).map Prod.snd

/-- The fresh-resolution path of `run_lock`: extract package names from
the grouped tags' Dockerfiles, query the package index for each, resolve
the digest and build a new section.  Returns the section (none when no
packages were found) and the package names queried. -/
def freshResolve (env : LockEnv) (baseRef : String) (tags : List String)
    (codename : String) : Option LockSection × List String :=
  if (env.packagesOf tags).isEmpty then (none, [])
  else
    (some { digest := env.digestOf baseRef
            codename := codename
            packages := (env.packagesOf tags).filterMap (fun pkg =>
              (env.pkgVersion pkg codename).map (fun v => (pkg, v))) },
      env.packagesOf tags)

/-- One iteration of `run_lock`'s per-base loop: extract the version
after the first `:` of the base ref (refs produced by `_get_base_ref`
always contain one), resolve the codename (a failure skips the base),
then reuse the existing non-empty section or resolve freshly. -/
def processBase (env : LockEnv) (existingBases : List (String × LockSection))
    (baseRef : String) (tags : List String) :
    Option LockSection × List String :=
  match (splitOnChar ':' baseRef.data)[1]? with
  | none => (none, [])
  | some versionChars =>
    match env.codenameOf (String.mk versionChars) with
    | none => (none, [])
    | some codename =>
      match sectionFor existingBases baseRef with
      | some sec =>
        if sec.packages.isEmpty then freshResolve env baseRef tags codename
        else (some sec, [])
      | none => freshResolve env baseRef tags codename

/-- The whole `run_lock` loop over the grouped bases: the `bases_data`
mapping that gets written to the lock file, plus, per base, the
package-index queries that were issued for it. -/
def buildBasesData (env : LockEnv)
    (existingBases : List (String × LockSection)) :
    List (String × List String) →
      List (String × LockSection) × List (String × List String)
  | [] => ([], [])
  | (baseRef, tags) :: rest =>
    match (processBase env existingBases baseRef tags).1 with
    | some sec =>
      ((baseRef, sec) :: (buildBasesData env existingBases rest).1,
        (baseRef, (processBase env existingBases baseRef tags).2)
          :: (buildBasesData env existingBases rest).2)
    | none =>
      ((buildBasesData env existingBases rest).1,
        (baseRef, (processBase env existingBases baseRef tags).2)
          :: (buildBasesData env existingBases rest).2)

/-!
## DependencyGraph  (`manager/dependency_graph.py`)

`topological_sort(dependencies)` hands the mapping node → predecessors
to the standard library's `graphlib.TopologicalSorter` and returns
`list(sorter.static_order())`, converting the cycle `ValueError` into
`CyclicDependencyError`.  `TopologicalSorter` registers every key *and*
every dependency name as a node, and `static_order` repeatedly emits the
group of nodes whose predecessors have all been emitted, raising when no
node is emittable while nodes remain.  The embedding performs the same
round-based saturation over the full node set; the `none` result is the
raised `CyclicDependencyError`.  The dependency map is an association
list in insertion order (a Python dict).
-/

/-- The predecessors registered for a node: its dependency set when it is
a key of the map, empty otherwise. -/
def preds (g : List (String × List String)) (n : String) : List String :=
  match g.find? (fun p => p.1 == n) with
  | some p => p.2
  | none => []

/-- Every node `TopologicalSorter` registers: the keys and every
dependency name, without duplicates. -/
def depNodes (g : List (String × List String)) : List String :=
  dedupKeepFirst (g.map Prod.fst ++ (g.map Prod.snd).flatten)

/-- The emission loop of `static_order`: emit every currently
dependency-satisfied node, append it to the output, repeat; fail when
nodes remain but none is emittable (the cycle error).  `fuel` bounds the
rounds; each successful round removes at least one node, so
`(depNodes g).length` rounds always suffice. -/
def kahnAux (g : List (String × List String)) :
    Nat → List String → List String → Option (List String)
  | _, acc, [] => some acc
  | 0, _, _ :: _ => none
  | fuel + 1, acc, n :: rest =>
    if ((n :: rest).filter (fun m =>
        (preds g m).all (fun d => acc.contains d))).isEmpty then none
    else
      kahnAux g fuel
        (acc ++ (n :: rest).filter (fun m =>
          (preds g m).all (fun d => acc.contains d)))
        ((n :: rest).filter (fun m =>
          !(((n :: rest).filter (fun m2 =>
            (preds g m2).all (fun d => acc.contains d))).contains m)))

def topological_sort (g : List (String × List String)) :
    Option (List String) :=
  kahnAux g (depNodes g).length [] (depNodes g)

/-- `n` reaches `d` by following one or more dependency edges (each step
goes from a node to one of its registered predecessors). -/
inductive Reaches (g : List (String × List String)) : String → String → Prop
  | step (n d : String) : d ∈ preds g n → Reaches g n d
  | trans (n m d : String) : Reaches g n m → d ∈ preds g m →
      Reaches g n d

/-- The dependency map contains a cycle among its nodes. -/
def HasCycle (g : List (String × List String)) : Prop :=
  ∃ n, Reaches g n n

/-- Every node's predecessors appear strictly earlier in the list. -/
def prefixClosed (g : List (String × List String)) (l : List String) :
    Prop :=
  ∀ j (hj : j < l.length), ∀ d ∈ preds g (l.get ⟨j, hj⟩), d ∈ l.take j

/-!
## Theorems
-/

theorem mergeEntry_fst (o : List (String × String)) (p : String × String) :
    (mergeEntry o p).1 = p.1 := by
  unfold mergeEntry
  cases o.find? (fun q => q.1 == p.1) <;> rfl


theorem find?_map_merged (o : List (String × String)) (k : String) :
    ∀ base : List (String × String),
      (base.map (mergeEntry o)).find? (fun p => p.1 == k)
      = (base.find? (fun p => p.1 == k)).map (mergeEntry o) := by
  intro base
  induction base with
  | nil => rfl
  | cons p bs ih =>
    cases h : (p.1 == k) with
    | true =>
      simp only [List.map_cons, List.find?_cons, mergeEntry_fst, h]
      rfl
    | false =>
      simp only [List.map_cons, List.find?_cons, mergeEntry_fst, h]
      exact ih

theorem find?_filter_not_in_base (base : List (String × String)) (k : String)
    (hb : base.find? (fun p => p.1 == k) = none) :
    ∀ o : List (String × String),
      (o.filter (fun q => !(base.any (fun p => p.1 == q.1)))).find?
        (fun p => p.1 == k)
      = o.find? (fun p => p.1 == k) := by
  have hall : ∀ p ∈ base, ¬(p.1 == k) = true := by
    intro p hp
    exact List.find?_eq_none.mp hb p hp
  intro o
  induction o with
  | nil => rfl
  | cons q os ih =>
    cases hmem : base.any (fun p => p.1 == q.1) with
    | true =>
      have hq : (q.1 == k) = false := by
        cases hqk : (q.1 == k) with
        | false => rfl
        | true =>
          exfalso
          have hk : q.1 = k := eq_of_beq hqk
          obtain ⟨p, hp, hpq⟩ := List.any_eq_true.mp hmem
          rw [hk] at hpq
          exact hall p hp hpq
      rw [List.filter_cons_of_neg (by simp [hmem])]
      rw [ih]
      simp only [List.find?_cons, hq]
    | false =>
      rw [List.filter_cons_of_pos (by simp [hmem])]
      cases hq : (q.1 == k) with
      | true =>
        simp only [List.find?_cons, hq]
      | false =>
        simp only [List.find?_cons, hq]
        exact ih

theorem lookup_merge (base override : List (String × String)) (k : String) :
    lookupStr (Merger.merge base override) k
      = firstSome (lookupStr override k) (lookupStr base k) := by
  unfold Merger.merge lookupStr
  rw [List.find?_append, find?_map_merged]
  cases hb : base.find? (fun p => p.1 == k) with
  | some p =>
    have hpk := List.find?_some hb
    simp only [beq_iff_eq] at hpk
    have hk : p.1 = k := hpk
    have hrw : override.find? (fun q => q.1 == p.1)
        = override.find? (fun q => q.1 == k) := by rw [hk]
    unfold mergeEntry
    simp only [Option.map_some']
    rw [Option.or_of_isSome Option.isSome_some, hrw]
    cases ho : override.find? (fun q => q.1 == k) with
    | some q => simp [firstSome]
    | none => simp [firstSome]
  | none =>
    rw [find?_filter_not_in_base base k hb override]
    cases ho : override.find? (fun p => p.1 == k) <;> simp [firstSome]

/-- C6: `merge(base, override)` returns a map whose key set is the union of
the two key sets, whose value at every key present in override is
override's value, whose value at every key present only in base is base's
value unchanged, and `merge({a:"1",b:"2"}, {b:"3",c:"4"})` is
`{a:"1",b:"3",c:"4"}`. -/
theorem merge_union_override_wins (base override : List (String × String)) :
    (∀ k, (lookupStr (Merger.merge base override) k).isSome
        = ((lookupStr base k).isSome || (lookupStr override k).isSome))
    ∧ (∀ k v, lookupStr override k = some v →
        lookupStr (Merger.merge base override) k = some v)
    ∧ (∀ k, lookupStr override k = none →
        lookupStr (Merger.merge base override) k = lookupStr base k)
    ∧ Merger.merge [("a", "1"), ("b", "2")] [("b", "3"), ("c", "4")]
        = [("a", "1"), ("b", "3"), ("c", "4")] := by
  refine ⟨?_, ?_, ?_, by decide⟩
  · intro k
    rw [lookup_merge]
    cases ho : lookupStr override k <;>
      cases hb : lookupStr base k <;> simp [firstSome]
  · intro k v ho
    rw [lookup_merge, ho]
    rfl
  · intro k ho
    rw [lookup_merge, ho]
    rfl

/-- C3 counterexample: on an empty templates directory the exhausted
explicit/variant/default search of `TemplateResolver.resolve` raises the
builtin file-not-found error, not the typed template-not-found error of
the spec's taxonomy. -/
theorem resolve_exhausted_raises_builtin_counterexample :
    isRaised (TemplateResolver.resolve (fun _ => false) "templates" none none)
      = true
    ∧ errIsTemplateNotFound
        (TemplateResolver.resolve (fun _ => false) "templates" none none)
      = false := by
  exact ⟨rfl, rfl⟩

/-- C3 (amended): every outcome of `TemplateResolver.resolve` is either a
resolved path or a raised builtin `FileNotFoundError`; in particular no
invocation ever surfaces a typed `TemplateNotFoundError`. -/
theorem resolve_errors_are_file_not_found (ex : String → Bool)
    (templatesDir : String) (explicit variantName : Option String) :
    (∃ p, TemplateResolver.resolve ex templatesDir explicit variantName
        = .ok p)
    ∨ (∃ s, TemplateResolver.resolve ex templatesDir explicit variantName
        = .error (.fileNotFoundError s)) := by
  unfold TemplateResolver.resolve
  dsimp only
  split_ifs
  · exact Or.inl ⟨_, rfl⟩
  · exact Or.inr ⟨_, rfl⟩
  · exact Or.inl ⟨_, rfl⟩
  · exact Or.inl ⟨_, rfl⟩
  · exact Or.inr ⟨_, rfl⟩
  · exact Or.inl ⟨_, rfl⟩
  · exact Or.inr ⟨_, rfl⟩

/-- C4: when an explicit template name is given (a nonempty string) and the
named file does not exist in the templates directory, `resolve` raises
immediately with the explicit-template error — it never falls through to
the variant-specific or default template, whatever else the directory
contains. -/
theorem resolve_explicit_missing_fails (ex : String → Bool)
    (templatesDir e : String) (variantName : Option String)
    (hne : e ≠ "") (hmiss : ex (joinPath templatesDir e) = false) :
    TemplateResolver.resolve ex templatesDir (some e) variantName
      = .error (.fileNotFoundError
          ("Template not found: explicit template " ++ e
            ++ " does not exist in " ++ templatesDir)) := by
  unfold TemplateResolver.resolve
  have ht : pyTruthy (some e) = true := by
    unfold pyTruthy
    simp [hne]
  rw [ht]
  simp [hmiss]

/-- C4 witness: with only the default template present, an explicit name
that does not exist makes `resolve` fail immediately. -/
theorem resolve_explicit_missing_fails_witness :
    ("custom.jinja2" ≠ ""
      ∧ (fun p => p == "t/Dockerfile.jinja2") (joinPath "t" "custom.jinja2")
          = false
      ∧ (fun p => p == "t/Dockerfile.jinja2") (joinPath "t" "Dockerfile.jinja2")
          = true)
    ∧ TemplateResolver.resolve (fun p => p == "t/Dockerfile.jinja2") "t"
        (some "custom.jinja2") none
      = .error (.fileNotFoundError
          ("Template not found: explicit template custom.jinja2 does not exist in t")) :=
  ⟨⟨by decide, by decide, by decide⟩,
    resolve_explicit_missing_fails _ _ _ _ (by decide) (by decide)⟩

mutual

theorem entryHasContent_sound : ∀ e : FSEntry,
    entryHasContent e = true → HasFileOrLink e
  | .file n, _ => .file n
  | .symlink n t, _ => .symlink n t
  | .dir n cs, h => by
    have h2 : entriesHaveContent cs = true := by
      simpa [entryHasContent] using h
    obtain ⟨e, he, hc⟩ := entriesHaveContent_sound cs h2
    exact .dirChild n cs e he hc

theorem entriesHaveContent_sound : ∀ cs : List FSEntry,
    entriesHaveContent cs = true → ∃ e ∈ cs, HasFileOrLink e
  | [], h => by simp [entriesHaveContent] at h
  | e :: es, h => by
    have h2 : entryHasContent e = true ∨ entriesHaveContent es = true := by
      have := h
      simp only [entriesHaveContent, Bool.or_eq_true] at this
      exact this
    rcases h2 with h1 | h1
    · exact ⟨e, by simp, entryHasContent_sound e h1⟩
    · obtain ⟨x, hx, hc⟩ := entriesHaveContent_sound es h1
      exact ⟨x, by simp [hx], hc⟩

end

theorem entriesHaveContent_of_mem : ∀ (cs : List FSEntry) (x : FSEntry),
    x ∈ cs → entryHasContent x = true → entriesHaveContent cs = true
  | e :: es, x, hx, hc => by
    rcases List.mem_cons.mp hx with rfl | hx2
    · simp [entriesHaveContent, hc]
    · simp [entriesHaveContent, entriesHaveContent_of_mem es x hx2 hc]

theorem entryHasContent_complete (e : FSEntry) (h : HasFileOrLink e) :
    entryHasContent e = true := by
  induction h with
  | file n => rfl
  | symlink n t => rfl
  | dirChild n cs x hx _ ih =>
    simpa [entryHasContent] using entriesHaveContent_of_mem cs x hx ih

/-- C9: `has_rootfs_content` is true exactly when a regular file or
symlink exists somewhere under one of the listed (existing) paths; a tree
of only nested empty directories yields false, and the same tree with one
file added anywhere beneath it yields true. -/
theorem has_rootfs_content_iff (paths : List (Option (List FSEntry))) :
    (has_rootfs_content paths = true
      ↔ ∃ cs, (some cs) ∈ paths ∧ ∃ e ∈ cs, HasFileOrLink e)
    ∧ has_rootfs_content [some [.dir "a" [.dir "b" []]]] = false
    ∧ has_rootfs_content [some [.dir "a" [.dir "b" [.file "x"]]]] = true := by
  refine ⟨?_, rfl, rfl⟩
  constructor
  · intro h
    obtain ⟨p, hp, hc⟩ := List.any_eq_true.mp h
    cases p with
    | none => simp at hc
    | some cs =>
      have hcs : entriesHaveContent cs = true := hc
      exact ⟨cs, hp, entriesHaveContent_sound cs hcs⟩
  · rintro ⟨cs, hcs, e, he, hfl⟩
    refine List.any_eq_true.mpr ⟨some cs, hcs, ?_⟩
    exact entriesHaveContent_of_mem cs e he (entryHasContent_complete e hfl)

/-- C10 counterexample: a multi-base lock file whose single recorded
section has an empty package map makes `read_lock_file` return an empty
map for an unrecorded base ref, although the file exists, is non-empty
and its bases map is non-empty. -/
theorem read_lock_file_empty_counterexample :
    read_lock_file
        (.multiBase [("ubuntu:24.04", ⟨none, "noble", []⟩)])
        (some "debian:12")
      = []
    ∧ ([("ubuntu:24.04", (⟨none, "noble", []⟩ : LockSection))]
        ≠ ([] : List (String × LockSection))) := by
  exact ⟨rfl, by decide⟩

/-- C10 (amended): with a non-empty multi-base bases map, a base ref that
is not recorded selects the first recorded section's package map, and the
returned map is always the package map of some recorded section (so it is
empty only when that section's own package map is empty); missing files,
empty files and empty bases maps return the empty map. -/
theorem read_lock_file_fallback_first (bases : List (String × LockSection))
    (r : Option String) (hne : bases ≠ []) :
    (bases.find? (fun p => p.1 == r.getD "") = none →
      read_lock_file (.multiBase bases) r = firstBasePackages bases)
    ∧ (∃ q ∈ bases, read_lock_file (.multiBase bases) r = q.2.packages)
    ∧ read_lock_file .missing r = []
    ∧ read_lock_file .empty r = []
    ∧ read_lock_file (.multiBase []) r = [] := by
  obtain ⟨p, ps, rfl⟩ : ∃ p ps, bases = p :: ps := by
    cases bases with
    | nil => exact absurd rfl hne
    | cons p ps => exact ⟨p, ps, rfl⟩
  refine ⟨?_, ?_, rfl, rfl, ?_⟩
  · intro hfind
    cases ht : pyTruthy r with
    | true => simp [read_lock_file, ht, hfind]
    | false => simp [read_lock_file, ht]
  · cases ht : pyTruthy r with
    | true =>
      cases hfind : (p :: ps).find? (fun q => q.1 == r.getD "") with
      | some q =>
        exact ⟨q, List.mem_of_find?_eq_some hfind,
          by simp [read_lock_file, ht, hfind]⟩
      | none =>
        exact ⟨p, by simp,
          by simp [read_lock_file, ht, hfind, firstBasePackages]⟩
    | false =>
      exact ⟨p, by simp, by simp [read_lock_file, ht, firstBasePackages]⟩
  · cases ht : pyTruthy r with
    | true => simp [read_lock_file, ht, firstBasePackages]
    | false => simp [read_lock_file, ht, firstBasePackages]

/-- C10 witness: a concrete two-section lock file with an unrecorded ref
falls back to the first section's packages. -/
theorem read_lock_file_fallback_first_witness :
    ([("ubuntu:24.04", (⟨none, "noble", [("curl", "8.5.0")]⟩ : LockSection)),
      ("ubuntu:22.04", ⟨none, "jammy", [("curl", "7.81.0")]⟩)] ≠ [])
    ∧ (([("ubuntu:24.04",
          (⟨none, "noble", [("curl", "8.5.0")]⟩ : LockSection)),
        ("ubuntu:22.04", ⟨none, "jammy", [("curl", "7.81.0")]⟩)].find?
          (fun p => p.1 == (some "debian:12").getD "") = none) →
        read_lock_file
          (.multiBase
            [("ubuntu:24.04", ⟨none, "noble", [("curl", "8.5.0")]⟩),
             ("ubuntu:22.04", ⟨none, "jammy", [("curl", "7.81.0")]⟩)])
          (some "debian:12")
        = firstBasePackages
            [("ubuntu:24.04", ⟨none, "noble", [("curl", "8.5.0")]⟩),
             ("ubuntu:22.04", ⟨none, "jammy", [("curl", "7.81.0")]⟩)]) :=
  ⟨by decide,
    (read_lock_file_fallback_first _ (some "debian:12") (by decide)).1⟩

theorem lexLtBy_irrefl (lt : α → α → Bool) (hirr : ∀ a, lt a a = false) :
    ∀ xs, lexLtBy lt xs xs = false := by
  intro xs
  induction xs with
  | nil => rfl
  | cons a as ih => simp [lexLtBy, hirr a, ih]

theorem lexLtBy_asymm (lt : α → α → Bool)
    (hasym : ∀ a b, lt a b = true → lt b a = false) :
    ∀ xs ys, lexLtBy lt xs ys = true → lexLtBy lt ys xs = false := by
  intro xs
  induction xs with
  | nil =>
    intro ys h
    cases ys with
    | nil => simp [lexLtBy] at h
    | cons b bs => rfl
  | cons a as ih =>
    intro ys h
    cases ys with
    | nil => simp [lexLtBy] at h
    | cons b bs =>
      cases hab : lt a b with
      | true => simp [lexLtBy, hasym a b hab, hab]
      | false =>
        cases hba : lt b a with
        | true => simp [lexLtBy, hab, hba] at h
        | false =>
          have hrec : lexLtBy lt as bs = true := by
            simpa [lexLtBy, hab, hba] using h
          simp [lexLtBy, hab, hba, ih bs hrec]

theorem lexLtBy_eq_of_both_false (lt : α → α → Bool)
    (he : ∀ a b, lt a b = false → lt b a = false → a = b) :
    ∀ xs ys, lexLtBy lt xs ys = false → lexLtBy lt ys xs = false →
      xs = ys := by
  intro xs
  induction xs with
  | nil =>
    intro ys h1 _
    cases ys with
    | nil => rfl
    | cons b bs => simp [lexLtBy] at h1
  | cons a as ih =>
    intro ys h1 h2
    cases ys with
    | nil => simp [lexLtBy] at h2
    | cons b bs =>
      cases hab : lt a b with
      | true => simp [lexLtBy, hab] at h1
      | false =>
        cases hba : lt b a with
        | true => simp [lexLtBy, hba] at h2
        | false =>
          have e1 : lexLtBy lt as bs = false := by
            simpa [lexLtBy, hab, hba] using h1
          have e2 : lexLtBy lt bs as = false := by
            simpa [lexLtBy, hab, hba] using h2
          rw [he a b hab hba, ih bs e1 e2]

theorem lexLtBy_trans_pos (lt : α → α → Bool)
    (he : ∀ a b, lt a b = false → lt b a = false → a = b)
    (htr : ∀ a b c, lt a b = true → lt b c = true → lt a c = true) :
    ∀ xs ys zs, lexLtBy lt xs ys = true → lexLtBy lt ys zs = true →
      lexLtBy lt xs zs = true := by
  intro xs
  induction xs with
  | nil =>
    intro ys zs h1 h2
    cases ys with
    | nil => simp [lexLtBy] at h1
    | cons b bs =>
      cases zs with
      | nil => simp [lexLtBy] at h2
      | cons c cs => rfl
  | cons a as ih =>
    intro ys zs h1 h2
    cases ys with
    | nil => simp [lexLtBy] at h1
    | cons b bs =>
      cases zs with
      | nil => simp [lexLtBy] at h2
      | cons c cs =>
        cases hab : lt a b with
        | true =>
          cases hbc : lt b c with
          | true => simp [lexLtBy, htr a b c hab hbc]
          | false =>
            cases hcb : lt c b with
            | true => simp [lexLtBy, hbc, hcb] at h2
            | false =>
              have hb : b = c := he b c hbc hcb
              subst hb
              simp [lexLtBy, hab]
        | false =>
          cases hba : lt b a with
          | true => simp [lexLtBy, hab, hba] at h1
          | false =>
            have hb : a = b := he a b hab hba
            subst hb
            have hrec1 : lexLtBy lt as bs = true := by
              simpa [lexLtBy, hab, hba] using h1
            cases hac : lt a c with
            | true => simp [lexLtBy, hac]
            | false =>
              cases hca : lt c a with
              | true => simp [lexLtBy, hac, hca] at h2
              | false =>
                have hrec2 : lexLtBy lt bs cs = true := by
                  simpa [lexLtBy, hac, hca] using h2
                simp [lexLtBy, hac, hca, ih bs cs hrec1 hrec2]

theorem lexLtBy_trans_false (lt : α → α → Bool)
    (he : ∀ a b, lt a b = false → lt b a = false → a = b)
    (htr : ∀ a b c, lt a b = true → lt b c = true → lt a c = true)
    (htf : ∀ a b c, lt a b = false → lt b c = false → lt a c = false) :
    ∀ xs ys zs, lexLtBy lt xs ys = false → lexLtBy lt ys zs = false →
      lexLtBy lt xs zs = false := by
  intro xs
  induction xs with
  | nil =>
    intro ys zs h1 h2
    cases ys with
    | cons b bs => simp [lexLtBy] at h1
    | nil =>
      cases zs with
      | cons c cs => simp [lexLtBy] at h2
      | nil => rfl
  | cons a as ih =>
    intro ys zs h1 h2
    cases ys with
    | nil =>
      cases zs with
      | nil => rfl
      | cons c cs => simp [lexLtBy] at h2
    | cons b bs =>
      cases zs with
      | nil => rfl
      | cons c cs =>
        cases hab : lt a b with
        | true => simp [lexLtBy, hab] at h1
        | false =>
          cases hbc : lt b c with
          | true => simp [lexLtBy, hbc] at h2
          | false =>
            have hac : lt a c = false := htf a b c hab hbc
            cases hba : lt b a with
            | true =>
              cases hcb : lt c b with
              | true => simp [lexLtBy, hac, htr c b a hcb hba]
              | false =>
                have hb : b = c := he b c hbc hcb
                subst hb
                simp [lexLtBy, hac, hba]
            | false =>
              have hb : a = b := he a b hab hba
              subst hb
              have hrec1 : lexLtBy lt as bs = false := by
                simpa [lexLtBy, hab, hba] using h1
              cases hca : lt c a with
              | true => simp [lexLtBy, hac, hca]
              | false =>
                have hrec2 : lexLtBy lt bs cs = false := by
                  simpa [lexLtBy, hbc, hca] using h2
                simp [lexLtBy, hac, hca, ih bs cs hrec1 hrec2]

theorem charLt_irrefl (a : Char) : charLt a a = false := by
  simp [charLt]

theorem charLt_asymm (a b : Char) (h : charLt a b = true) :
    charLt b a = false := by
  simp only [charLt, decide_eq_true_eq] at h
  simp only [charLt, decide_eq_false_iff_not]
  exact lt_asymm h

theorem charLt_eq (a b : Char) (h1 : charLt a b = false)
    (h2 : charLt b a = false) : a = b := by
  simp only [charLt, decide_eq_false_iff_not] at h1 h2
  exact le_antisymm (le_of_not_lt h2) (le_of_not_lt h1)

theorem charLt_trans (a b c : Char) (h1 : charLt a b = true)
    (h2 : charLt b c = true) : charLt a c = true := by
  simp only [charLt, decide_eq_true_eq] at *
  exact lt_trans h1 h2

theorem charLt_trans_false (a b c : Char) (h1 : charLt a b = false)
    (h2 : charLt b c = false) : charLt a c = false := by
  simp only [charLt, decide_eq_false_iff_not] at *
  exact fun h =>
    absurd (lt_of_lt_of_le h (le_trans (le_of_not_lt h2) (le_of_not_lt h1)))
      (lt_irrefl a)

theorem charListLt_irrefl : ∀ cs, charListLt cs cs = false :=
  lexLtBy_irrefl charLt charLt_irrefl

theorem charListLt_asymm : ∀ cs ds, charListLt cs ds = true →
    charListLt ds cs = false :=
  lexLtBy_asymm charLt charLt_asymm

theorem charListLt_eq : ∀ cs ds, charListLt cs ds = false →
    charListLt ds cs = false → cs = ds :=
  lexLtBy_eq_of_both_false charLt charLt_eq

theorem charListLt_trans : ∀ cs ds es, charListLt cs ds = true →
    charListLt ds es = true → charListLt cs es = true :=
  lexLtBy_trans_pos charLt charLt_eq charLt_trans

theorem charListLt_trans_false : ∀ cs ds es, charListLt cs ds = false →
    charListLt ds es = false → charListLt cs es = false :=
  lexLtBy_trans_false charLt charLt_eq charLt_trans charLt_trans_false

theorem componentsLt_irrefl : ∀ xs, componentsLt xs xs = false :=
  lexLtBy_irrefl charListLt charListLt_irrefl

theorem componentsLt_asymm : ∀ xs ys, componentsLt xs ys = true →
    componentsLt ys xs = false :=
  lexLtBy_asymm charListLt charListLt_asymm

theorem componentsLt_trans_false : ∀ xs ys zs, componentsLt xs ys = false →
    componentsLt ys zs = false → componentsLt xs zs = false :=
  lexLtBy_trans_false charListLt charListLt_eq charListLt_trans
    charListLt_trans_false

theorem maxTag_eq_none : ∀ xs : List String,
    maxTagByComponents xs = none → xs = [] := by
  intro xs h
  cases xs with
  | nil => rfl
  | cons x xs =>
    exfalso
    unfold maxTagByComponents at h
    cases hrec : maxTagByComponents xs with
    | none => rw [hrec] at h; simp at h
    | some m =>
      rw [hrec] at h
      by_cases hlt : componentsLt (tagComponents x) (tagComponents m) = true
      · simp [hlt] at h
      · simp [hlt] at h

theorem maxTag_mem : ∀ (xs : List String) (m : String),
    maxTagByComponents xs = some m → m ∈ xs := by
  intro xs
  induction xs with
  | nil => intro m h; simp [maxTagByComponents] at h
  | cons x xs ih =>
    intro m h
    unfold maxTagByComponents at h
    cases hrec : maxTagByComponents xs with
    | none =>
      rw [hrec] at h
      simp at h
      simp [h]
    | some m2 =>
      rw [hrec] at h
      by_cases hlt : componentsLt (tagComponents x) (tagComponents m2) = true
      · simp [hlt] at h
        rw [← h]
        exact List.mem_cons_of_mem x (ih m2 hrec)
      · simp [hlt] at h
        rw [← h]
        exact List.mem_cons_self x xs

theorem maxTag_isMax : ∀ (xs : List String) (m : String),
    maxTagByComponents xs = some m →
    ∀ y ∈ xs, componentsLt (tagComponents m) (tagComponents y) = false := by
  intro xs
  induction xs with
  | nil => intro m h; simp [maxTagByComponents] at h
  | cons x xs ih =>
    intro m h y hy
    unfold maxTagByComponents at h
    cases hrec : maxTagByComponents xs with
    | none =>
      rw [hrec] at h
      simp at h
      rw [← h]
      have hxs : xs = [] := maxTag_eq_none xs hrec
      subst hxs
      have hyx : y = x := by simpa using hy
      rw [hyx]
      exact componentsLt_irrefl _
    | some m2 =>
      rw [hrec] at h
      by_cases hlt : componentsLt (tagComponents x) (tagComponents m2) = true
      · simp [hlt] at h
        rw [← h]
        rcases List.mem_cons.mp hy with rfl | hy2
        · exact componentsLt_asymm _ _ hlt
        · exact ih m2 hrec y hy2
      · simp [hlt] at h
        rw [← h]
        rcases List.mem_cons.mp hy with rfl | hy2
        · exact componentsLt_irrefl _
        · exact componentsLt_trans_false _ _ _
            (Bool.eq_false_iff.mpr hlt) (ih m2 hrec y hy2)

theorem maxTag_cons_isSome (x : String) (xs : List String) :
    ∃ m, maxTagByComponents (x :: xs) = some m := by
  unfold maxTagByComponents
  cases hrec : maxTagByComponents xs with
  | none => exact ⟨x, rfl⟩
  | some m2 =>
    by_cases hlt : componentsLt (tagComponents x) (tagComponents m2) = true
    · exact ⟨m2, by simp [hlt]⟩
    · exact ⟨x, by simp [hlt]⟩

theorem splitOnCharAux_ne_nil (sep : Char) :
    ∀ (cs acc : List Char), splitOnCharAux sep cs acc ≠ [] := by
  intro cs
  induction cs with
  | nil => intro acc; simp [splitOnCharAux]
  | cons c cs ih =>
    intro acc
    by_cases hc : c = sep
    · simp [splitOnCharAux, hc]
    · simp only [splitOnCharAux, if_neg hc]
      exact ih (acc ++ [c])

theorem splitOnCharAux_no_sep (sep : Char) :
    ∀ (cs acc : List Char), sep ∉ cs →
      splitOnCharAux sep cs acc = [acc ++ cs] := by
  intro cs
  induction cs with
  | nil => intro acc _; simp [splitOnCharAux]
  | cons c cs ih =>
    intro acc h
    have hc : ¬(c = sep) := by
      intro e
      exact h (by rw [e]; exact List.mem_cons_self _ _)
    have hrest : sep ∉ cs := fun hm => h (List.mem_cons_of_mem c hm)
    simp [splitOnCharAux, hc, ih (acc ++ [c]) hrest]

theorem splitOnCharAux_with_sep (sep : Char) :
    ∀ (c1 rest acc : List Char), sep ∉ c1 →
      splitOnCharAux sep (c1 ++ sep :: rest) acc
        = (acc ++ c1) :: splitOnCharAux sep rest [] := by
  intro c1
  induction c1 with
  | nil => intro rest acc _; simp [splitOnCharAux]
  | cons c cs ih =>
    intro rest acc h
    have hc : ¬(c = sep) := by
      intro e
      exact h (by rw [e]; exact List.mem_cons_self _ _)
    have hrest : sep ∉ cs := fun hm => h (List.mem_cons_of_mem c hm)
    simp [splitOnCharAux, hc, ih rest (acc ++ [c]) hrest]

theorem splitOnCharAux_components_no_sep (sep : Char) :
    ∀ (cs acc : List Char), sep ∉ acc →
      ∀ comp ∈ splitOnCharAux sep cs acc, sep ∉ comp := by
  intro cs
  induction cs with
  | nil =>
    intro acc hacc comp hm
    simp [splitOnCharAux] at hm
    rw [hm]
    exact hacc
  | cons c cs ih =>
    intro acc hacc comp hm
    by_cases hc : c = sep
    · simp only [splitOnCharAux, if_pos hc] at hm
      rcases List.mem_cons.mp hm with rfl | hm2
      · exact hacc
      · exact ih [] (by simp) comp hm2
    · simp only [splitOnCharAux, if_neg hc] at hm
      refine ih (acc ++ [c]) ?_ comp hm
      intro hmem
      rcases List.mem_append.mp hmem with h1 | h1
      · exact hacc h1
      · have : sep = c := by simpa using h1
        exact hc this.symm

theorem tagComponents_no_dot (t : String) :
    ∀ comp ∈ tagComponents t, '.' ∉ comp := by
  intro comp hm
  exact splitOnCharAux_components_no_sep '.' t.data [] (by simp) comp hm

theorem splitOnChar_joinComponents :
    ∀ css : List (List Char), css ≠ [] → (∀ comp ∈ css, '.' ∉ comp) →
      splitOnChar '.' (joinComponents css) = css := by
  intro css
  induction css with
  | nil => intro h _; exact absurd rfl h
  | cons c cs ih =>
    intro _ hns
    cases cs with
    | nil =>
      unfold splitOnChar
      rw [show joinComponents [c] = c from rfl,
        splitOnCharAux_no_sep '.' c [] (hns c (by simp))]
      simp
    | cons c2 cs2 =>
      unfold splitOnChar
      rw [show joinComponents (c :: c2 :: cs2)
            = c ++ '.' :: joinComponents (c2 :: cs2) from rfl,
        splitOnCharAux_with_sep '.' c _ [] (hns c (by simp))]
      simp only [List.nil_append]
      congr 1
      have hrec := ih (by simp)
        (fun comp hm => hns comp (List.mem_cons_of_mem c hm))
      unfold splitOnChar at hrec
      exact hrec

theorem aliasMatches_take : ∀ (n : Nat) (ps : List (List Char)),
    aliasMatches (ps.take n) ps = true := by
  intro n
  induction n with
  | zero => intro ps; rfl
  | succ n ih =>
    intro ps
    cases ps with
    | nil => rfl
    | cons p ps2 => simp [aliasMatches, ih ps2]

theorem mem_dedupKeepFirst : ∀ (l : List String) (a : String),
    a ∈ dedupKeepFirst l ↔ a ∈ l := by
  intro l
  induction l with
  | nil => intro a; simp [dedupKeepFirst]
  | cons x xs ih =>
    intro a
    simp only [dedupKeepFirst, List.mem_cons, List.mem_filter]
    constructor
    · rintro (rfl | ⟨hmem, _⟩)
      · exact Or.inl rfl
      · exact Or.inr ((ih a).mp hmem)
    · rintro (rfl | hmem)
      · exact Or.inl rfl
      · by_cases hax : a = x
        · exact Or.inl hax
        · refine Or.inr ⟨(ih a).mpr hmem, ?_⟩
          simp [hax]

theorem tagComponents_mk_joinComponents (ps : List (List Char)) (n : Nat)
    (hn : 0 < n) (hps : ps ≠ []) (hnd : ∀ comp ∈ ps, '.' ∉ comp) :
    tagComponents (String.mk (joinComponents (ps.take n))) = ps.take n := by
  unfold tagComponents
  rw [show (String.mk (joinComponents (ps.take n))).data
        = joinComponents (ps.take n) from rfl]
  refine splitOnChar_joinComponents (ps.take n) ?_
    (fun comp hm => hnd comp (List.take_subset n ps hm))
  cases ps with
  | nil => exact absurd rfl hps
  | cons p ps2 =>
    cases n with
    | zero => exact absurd hn (by simp)
    | succ n => simp

/-- C5: `generate_semver_aliases` emits an alias for every proper dotted
prefix (component lengths 1..N-1) of a tag name; the target recorded for
an alias is a tag that the alias matches component-wise and that no other
matching tag exceeds in the component-by-component string order (so the
target is the reverse-lexicographically highest match); and on
`["3.13.7","3.13.6","3.12.0"]` the result is exactly
`"3" -> "3.13.7"`, `"3.13" -> "3.13.7"`, `"3.12" -> "3.12.0"`. -/
theorem generate_semver_aliases_spec (tags : List String) :
    (∀ tg ∈ tags, ∀ a ∈ candidatesOfTag tg,
      ∃ t, (a, t) ∈ generate_semver_aliases tags)
    ∧ (∀ a t, (a, t) ∈ generate_semver_aliases tags →
        t ∈ tags
        ∧ aliasMatches (tagComponents a) (tagComponents t) = true
        ∧ ∀ u ∈ tags,
            aliasMatches (tagComponents a) (tagComponents u) = true →
            componentsLt (tagComponents t) (tagComponents u) = false)
    ∧ generate_semver_aliases ["3.13.7", "3.13.6", "3.12.0"]
      = [("3", "3.13.7"), ("3.13", "3.13.7"), ("3.12", "3.12.0")] := by
  refine ⟨?_, ?_, by decide⟩
  · intro tg htg a ha
    have hcand : a ∈ dedupKeepFirst (tags.map candidatesOfTag).flatten := by
      refine (mem_dedupKeepFirst _ a).mpr ?_
      refine List.mem_flatten.mpr ⟨candidatesOfTag tg, ?_, ha⟩
      exact List.mem_map_of_mem candidatesOfTag htg
    obtain ⟨i, hi, hae⟩ := List.mem_map.mp ha
    have hiN : i < (tagComponents tg).length - 1 := List.mem_range.mp hi
    have hps : tagComponents tg ≠ [] := by
      intro hnil
      rw [hnil] at hiN
      simp at hiN
    have hcomps : tagComponents a = (tagComponents tg).take (i + 1) := by
      rw [← hae]
      exact tagComponents_mk_joinComponents (tagComponents tg) (i + 1)
        (Nat.succ_pos i) hps (tagComponents_no_dot tg)
    have hmatch : aliasMatches (tagComponents a) (tagComponents tg)
        = true := by
      rw [hcomps]
      exact aliasMatches_take (i + 1) (tagComponents tg)
    have hfilter : tg ∈ tags.filter (fun t =>
        aliasMatches (tagComponents a) (tagComponents t)) :=
      List.mem_filter.mpr ⟨htg, hmatch⟩
    obtain ⟨x, xs, hcons⟩ : ∃ x xs, tags.filter (fun t =>
        aliasMatches (tagComponents a) (tagComponents t)) = x :: xs := by
      cases hf : tags.filter (fun t =>
          aliasMatches (tagComponents a) (tagComponents t)) with
      | nil => rw [hf] at hfilter; simp at hfilter
      | cons x xs => exact ⟨x, xs, rfl⟩
    obtain ⟨m, hm⟩ := maxTag_cons_isSome x xs
    refine ⟨m, ?_⟩
    unfold generate_semver_aliases
    refine List.mem_filterMap.mpr ⟨a, hcand, ?_⟩
    rw [hcons, hm]
  · intro a t hmem
    unfold generate_semver_aliases at hmem
    obtain ⟨b, _, hfb⟩ := List.mem_filterMap.mp hmem
    cases hmax : maxTagByComponents (tags.filter (fun u =>
        aliasMatches (tagComponents b) (tagComponents u))) with
    | none => rw [hmax] at hfb; simp at hfb
    | some m =>
      rw [hmax] at hfb
      simp only [Option.some.injEq, Prod.mk.injEq] at hfb
      obtain ⟨hba, hmt⟩ := hfb
      rw [hba, hmt] at hmax
      have htf := maxTag_mem _ _ hmax
      have ⟨htin, hpred⟩ := List.mem_filter.mp htf
      refine ⟨htin, hpred, ?_⟩
      intro u hu hum
      exact maxTag_isMax _ _ hmax u (List.mem_filter.mpr ⟨hu, hum⟩)

/-- C7: `generate_variant_tags` returns one tag per base tag (the length
invariant), and the tag produced at each position is named
`base_tag.name + variant.tag_suffix` with versions
`merge(merge(image_versions, base_tag.versions), variant.versions)`,
variables merged the same way, and rootfs fields inherited from the base
tag unless the variant sets them. -/
theorem generate_variant_tags_spec (baseTags : List Tag)
    (variant : VariantConfig)
    (imageVersions imageVariables : List (String × String)) :
    (TagGenerator.generate_variant_tags baseTags variant imageVersions
        imageVariables).length = baseTags.length
    ∧ ∀ i bt, baseTags.get? i = some bt →
        (TagGenerator.generate_variant_tags baseTags variant imageVersions
            imageVariables).get? i
          = some
              { name := bt.name ++ variant.tag_suffix
                versions := Merger.merge
                  (Merger.merge imageVersions bt.versions) variant.versions
                vars := Merger.merge
                  (Merger.merge imageVariables bt.vars) variant.vars
                rootfs_user := variant.rootfs_user.getD bt.rootfs_user
                rootfs_copy := variant.rootfs_copy.getD bt.rootfs_copy } := by
  constructor
  · simp [TagGenerator.generate_variant_tags]
  · intro i bt h
    simp only [List.get?_eq_getElem?] at h
    simp [TagGenerator.generate_variant_tags, List.getElem?_map,
      List.get?_eq_getElem?]
    exact ⟨bt, h, rfl, rfl, rfl, rfl, rfl⟩

theorem buildBasesData_finds (env : LockEnv)
    (existingBases : List (String × LockSection))
    (baseRef : String) (tags : List String) (sec : LockSection)
    (hstep : processBase env existingBases baseRef tags = (some sec, [])) :
    ∀ brs : List (String × List String), (baseRef, tags) ∈ brs →
      (brs.map Prod.fst).Nodup →
      ((buildBasesData env existingBases brs).1.find?
          (fun p => p.1 == baseRef)).map Prod.snd = some sec
      ∧ (buildBasesData env existingBases brs).2.find?
          (fun p => p.1 == baseRef) = some (baseRef, []) := by
  intro brs
  induction brs with
  | nil => intro h; simp at h
  | cons hd rest ih =>
    obtain ⟨b0, t0⟩ := hd
    intro hmem hnd
    rw [List.map_cons, List.nodup_cons] at hnd
    rcases List.mem_cons.mp hmem with heq | hmem2
    · injection heq.symm with h1 h2
      subst h1
      subst h2
      simp [buildBasesData, hstep]
    · have hb0 : (b0 == baseRef) = false := by
        refine beq_eq_false_iff_ne.mpr ?_
        intro e
        have hin : baseRef ∈ rest.map Prod.fst :=
          List.mem_map.mpr ⟨(baseRef, tags), hmem2, rfl⟩
        rw [← e] at hin
        exact hnd.1 hin
      have hrec := ih hmem2 hnd.2
      unfold buildBasesData
      cases hs : (processBase env existingBases b0 t0).1 with
      | some s0 =>
        refine ⟨?_, ?_⟩
        · simpa [List.find?_cons, hb0] using hrec.1
        · simpa [List.find?_cons, hb0] using hrec.2
      | none =>
        refine ⟨hrec.1, ?_⟩
        simpa [List.find?_cons, hb0] using hrec.2

/-- C8: re-running the lock over a base whose existing lock section has a
non-empty package map reuses that section verbatim in the newly written
bases data, and issues no package-index query for that base; only a
missing section or an empty package map leads to fresh package-version
resolution. -/
theorem run_lock_reuses_existing (env : LockEnv)
    (existingBases : List (String × LockSection))
    (baseRefsToTags : List (String × List String))
    (baseRef : String) (tags : List String)
    (codename : String) (sec : LockSection) (vc : List Char)
    (hver : (splitOnChar ':' baseRef.data)[1]? = some vc)
    (hcode : env.codenameOf (String.mk vc) = some codename)
    (hfound : sectionFor existingBases baseRef = some sec)
    (hpk : sec.packages ≠ [])
    (hmem : (baseRef, tags) ∈ baseRefsToTags)
    (hnodup : (baseRefsToTags.map Prod.fst).Nodup) :
    processBase env existingBases baseRef tags = (some sec, [])
    ∧ ((buildBasesData env existingBases baseRefsToTags).1.find?
        (fun p => p.1 == baseRef)).map Prod.snd = some sec
    ∧ (buildBasesData env existingBases baseRefsToTags).2.find?
        (fun p => p.1 == baseRef) = some (baseRef, [])
    ∧ (∀ (env2 : LockEnv) (exb : List (String × LockSection)) (bR : String)
          (tg : List String),
        (processBase env2 exb bR tg).2 ≠ [] →
        sectionFor exb bR = none
        ∨ ∃ s, sectionFor exb bR = some s ∧ s.packages = []) := by
  have hie : sec.packages.isEmpty = false := by
    cases hsp : sec.packages with
    | nil => exact absurd hsp hpk
    | cons a l => rfl
  have hstep : processBase env existingBases baseRef tags = (some sec, []) := by
    simp [processBase, hver, hcode, hfound, hie]
  have hfinds := buildBasesData_finds env existingBases baseRef tags sec hstep
    baseRefsToTags hmem hnodup
  refine ⟨hstep, hfinds.1, hfinds.2, ?_⟩
  intro env2 exb bR tg hq
  cases hf : sectionFor exb bR with
  | none => exact Or.inl rfl
  | some s =>
    by_cases hemp : s.packages.isEmpty = true
    · exact Or.inr ⟨s, rfl, List.isEmpty_iff.mp hemp⟩
    · exfalso
      apply hq
      cases hv : (splitOnChar ':' bR.data)[1]? with
      | none => simp [processBase, hv]
      | some v =>
        cases hc : env2.codenameOf (String.mk v) with
        | none => simp [processBase, hv, hc]
        | some cn => simp [processBase, hv, hc, hf, hemp]

/-- C8 witness: one base whose existing section is populated is reused
with zero package-index queries even though the package extractor and
index oracles would offer fresh data. -/
theorem run_lock_reuses_existing_witness :
    ((splitOnChar ':' "ubuntu:24.04".data)[1]? = some "24.04".data
      ∧ (fun v => if v == "24.04" then some "noble" else none)
          (String.mk "24.04".data) = some "noble"
      ∧ sectionFor [("ubuntu:24.04",
          ⟨some "sha256:aa", "noble", [("curl", "8.5.0")]⟩)] "ubuntu:24.04"
        = some ⟨some "sha256:aa", "noble", [("curl", "8.5.0")]⟩
      ∧ ([("curl", "8.5.0")] : List (String × String)) ≠ []
      ∧ ("ubuntu:24.04", ["3.13.7"])
          ∈ [(("ubuntu:24.04" : String), (["3.13.7"] : List String))]
      ∧ ([(("ubuntu:24.04" : String), (["3.13.7"] : List String))].map
          Prod.fst).Nodup)
    ∧ processBase
        ⟨fun v => if v == "24.04" then some "noble" else none,
          fun _ _ => some "1.0", fun _ => some "sha256:bb",
          fun _ => ["curl", "wget"]⟩
        [("ubuntu:24.04", ⟨some "sha256:aa", "noble", [("curl", "8.5.0")]⟩)]
        "ubuntu:24.04" ["3.13.7"]
      = (some ⟨some "sha256:aa", "noble", [("curl", "8.5.0")]⟩, []) :=
  ⟨⟨by decide, by decide, by decide, by decide, by decide, by decide⟩,
    (run_lock_reuses_existing
      ⟨fun v => if v == "24.04" then some "noble" else none,
        fun _ _ => some "1.0", fun _ => some "sha256:bb",
        fun _ => ["curl", "wget"]⟩
      [("ubuntu:24.04", ⟨some "sha256:aa", "noble", [("curl", "8.5.0")]⟩)]
      [("ubuntu:24.04", ["3.13.7"])] "ubuntu:24.04" ["3.13.7"]
      "noble" ⟨some "sha256:aa", "noble", [("curl", "8.5.0")]⟩ "24.04".data
      (by decide) (by decide) (by decide) (by decide) (by decide)
      (by decide)).1⟩

theorem nodup_dedupKeepFirst : ∀ l : List String,
    (dedupKeepFirst l).Nodup := by
  intro l
  induction l with
  | nil => exact List.nodup_nil
  | cons x xs ih =>
    refine List.nodup_cons.mpr ⟨?_, List.Nodup.filter _ ih⟩
    intro hmem
    have := (List.mem_filter.mp hmem).2
    simp at this

theorem key_mem_depNodes (g : List (String × List String)) (n : String)
    (h : preds g n ≠ []) : n ∈ depNodes g := by
  unfold preds at h
  cases hf : g.find? (fun p => p.1 == n) with
  | none => rw [hf] at h; exact absurd rfl h
  | some p =>
    have hpn : p.1 = n := by
      have := List.find?_some hf
      simpa using this
    refine (mem_dedupKeepFirst _ n).mpr ?_
    refine List.mem_append.mpr (Or.inl ?_)
    rw [← hpn]
    exact List.mem_map_of_mem Prod.fst (List.mem_of_find?_eq_some hf)

theorem dep_mem_depNodes (g : List (String × List String)) (n d : String)
    (h : d ∈ preds g n) : d ∈ depNodes g := by
  unfold preds at h
  cases hf : g.find? (fun p => p.1 == n) with
  | none => rw [hf] at h; simp at h
  | some p =>
    rw [hf] at h
    refine (mem_dedupKeepFirst _ d).mpr ?_
    refine List.mem_append.mpr (Or.inr ?_)
    exact List.mem_flatten.mpr
      ⟨p.2, List.mem_map_of_mem Prod.snd (List.mem_of_find?_eq_some hf), h⟩

theorem kahnAux_perm (g : List (String × List String)) :
    ∀ (fuel : Nat) (acc remaining l : List String),
      kahnAux g fuel acc remaining = some l → l.Perm (acc ++ remaining) := by
  intro fuel
  induction fuel with
  | zero =>
    intro acc remaining l h
    cases remaining with
    | nil =>
      simp [kahnAux] at h
      rw [← h]
      simp
    | cons n rest => simp [kahnAux] at h
  | succ fuel ih =>
    intro acc remaining l h
    cases remaining with
    | nil =>
      simp [kahnAux] at h
      rw [← h]
      simp
    | cons n rest =>
      rw [kahnAux] at h
      by_cases hrdy : ((n :: rest).filter (fun m =>
          (preds g m).all (fun d => acc.contains d))).isEmpty = true
      · rw [if_pos hrdy] at h
        exact absurd h (by simp)
      · rw [if_neg hrdy] at h
        have hperm := ih _ _ _ h
        refine hperm.trans ?_
        rw [List.append_assoc]
        refine List.Perm.append_left acc ?_
        have hfeq : (n :: rest).filter (fun m =>
            !(((n :: rest).filter (fun m2 =>
              (preds g m2).all (fun d => acc.contains d))).contains m))
          = (n :: rest).filter (fun m =>
            !((preds g m).all (fun d => acc.contains d))) := by
          refine List.filter_congr ?_
          intro m hm
          congr 1
          cases hq : (preds g m).all (fun d => acc.contains d) with
          | true =>
            have hmr : m ∈ (n :: rest).filter (fun m2 =>
                (preds g m2).all (fun d => acc.contains d)) :=
              List.mem_filter.mpr ⟨hm, hq⟩
            exact List.elem_iff.mpr hmr
          | false =>
            cases hc : ((n :: rest).filter (fun m2 =>
                (preds g m2).all (fun d => acc.contains d))).contains m with
            | false => rfl
            | true =>
              exfalso
              have := (List.mem_filter.mp (List.elem_iff.mp hc)).2
              rw [hq] at this
              exact Bool.false_ne_true this
        rw [hfeq]
        exact List.filter_append_perm _ (n :: rest)

theorem prefixClosed_append_ready (g : List (String × List String))
    (acc ready : List String) (hacc : prefixClosed g acc)
    (hready : ∀ m ∈ ready, ∀ d ∈ preds g m, d ∈ acc) :
    prefixClosed g (acc ++ ready) := by
  intro j hj d hd
  rw [List.length_append] at hj
  by_cases hja : j < acc.length
  · have hga : (acc ++ ready).get ⟨j, by rw [List.length_append]; omega⟩
        = acc.get ⟨j, hja⟩ := by
      simp [List.get_eq_getElem, List.getElem_append_left hja]
    rw [hga] at hd
    have hmem := hacc j hja d hd
    rw [List.take_append_eq_append_take]
    exact List.mem_append.mpr (Or.inl hmem)
  · have hja2 : acc.length ≤ j := Nat.le_of_not_lt hja
    have hjr : j - acc.length < ready.length := by omega
    have hga : (acc ++ ready).get ⟨j, by rw [List.length_append]; omega⟩
        = ready.get ⟨j - acc.length, hjr⟩ := by
      simp [List.get_eq_getElem, List.getElem_append_right hja2]
    rw [hga] at hd
    have hm : ready.get ⟨j - acc.length, hjr⟩ ∈ ready :=
      List.get_mem ready _ hjr
    have hdacc : d ∈ acc := hready _ hm d hd
    rw [List.take_append_eq_append_take]
    refine List.mem_append.mpr (Or.inl ?_)
    rw [List.take_of_length_le hja2]
    exact hdacc

theorem kahnAux_prefixClosed (g : List (String × List String)) :
    ∀ (fuel : Nat) (acc remaining l : List String),
      kahnAux g fuel acc remaining = some l →
      prefixClosed g acc → prefixClosed g l := by
  intro fuel
  induction fuel with
  | zero =>
    intro acc remaining l h hacc
    cases remaining with
    | nil =>
      simp [kahnAux] at h
      rw [← h]
      exact hacc
    | cons n rest => simp [kahnAux] at h
  | succ fuel ih =>
    intro acc remaining l h hacc
    cases remaining with
    | nil =>
      simp [kahnAux] at h
      rw [← h]
      exact hacc
    | cons n rest =>
      rw [kahnAux] at h
      by_cases hrdy : ((n :: rest).filter (fun m =>
          (preds g m).all (fun d => acc.contains d))).isEmpty = true
      · rw [if_pos hrdy] at h
        exact absurd h (by simp)
      · rw [if_neg hrdy] at h
        refine ih _ _ _ h ?_
        refine prefixClosed_append_ready g acc _ hacc ?_
        intro m hm d hd
        have hq := (List.mem_filter.mp hm).2
        have := List.all_eq_true.mp hq d hd
        exact List.elem_iff.mp (by simpa using this)

theorem cycle_of_succ_aux (g : List (String × List String))
    (S : List String)
    (hstep : ∀ n ∈ S, ∃ d, d ∈ preds g n ∧ d ∈ S) :
    ∀ (k : Nat) (path : List String) (cur : String),
      cur ∈ S → (∀ p ∈ path, p ∈ S) → path.Nodup → cur ∉ path →
      (∀ p ∈ path, Reaches g p cur) →
      S.length ≤ k + path.length →
      HasCycle g := by
  intro k
  induction k with
  | zero =>
    intro path cur hcur hsub hnd hcp _ hlen
    exfalso
    have hnodup2 : (cur :: path).Nodup := List.nodup_cons.mpr ⟨hcp, hnd⟩
    have hsub2 : ∀ p ∈ cur :: path, p ∈ S := by
      intro p hp
      rcases List.mem_cons.mp hp with rfl | hp2
      · exact hcur
      · exact hsub p hp2
    have hcard : (cur :: path).length ≤ S.length := by
      have h1 : (cur :: path).toFinset.card = (cur :: path).length :=
        List.toFinset_card_of_nodup hnodup2
      have h2 : (cur :: path).toFinset ⊆ S.toFinset := by
        intro a ha
        exact List.mem_toFinset.mpr (hsub2 a (List.mem_toFinset.mp ha))
      have h3 := Finset.card_le_card h2
      have h4 := List.toFinset_card_le S
      omega
    simp only [List.length_cons] at hcard
    omega
  | succ k ih =>
    intro path cur hcur hsub hnd hcp hreach hlen
    obtain ⟨d, hd, hdS⟩ := hstep cur hcur
    by_cases hdc : d = cur
    · exact ⟨cur, hdc ▸ Reaches.step cur d hd⟩
    · by_cases hdp : d ∈ path
      · exact ⟨d, Reaches.trans d cur d (hreach d hdp) hd⟩
      · refine ih (path ++ [cur]) d hdS ?_ ?_ ?_ ?_ ?_
        · intro p hp
          rcases List.mem_append.mp hp with h1 | h1
          · exact hsub p h1
          · have hpc : p = cur := by simpa using h1
            rw [hpc]
            exact hcur
        · refine List.nodup_append.mpr
            ⟨hnd, List.nodup_singleton cur, ?_⟩
          intro a ha hb
          have : a = cur := by simpa using hb
          rw [this] at ha
          exact hcp ha
        · intro hmem
          rcases List.mem_append.mp hmem with h1 | h1
          · exact hdp h1
          · exact hdc (by simpa using h1)
        · intro p hp
          rcases List.mem_append.mp hp with h1 | h1
          · exact Reaches.trans p cur d (hreach p h1) hd
          · have hpc : p = cur := by simpa using h1
            rw [hpc]
            exact Reaches.step cur d hd
        · rw [List.length_append, List.length_singleton]
          omega

theorem cycle_of_succ (g : List (String × List String)) (S : List String)
    (hne : S ≠ []) (hstep : ∀ n ∈ S, ∃ d, d ∈ preds g n ∧ d ∈ S) :
    HasCycle g := by
  cases S with
  | nil => exact absurd rfl hne
  | cons n rest =>
    refine cycle_of_succ_aux g (n :: rest) hstep (n :: rest).length []
      n (by simp) (by simp) List.nodup_nil (by simp) (by simp) (by simp)

theorem kahnAux_none_cycle (g : List (String × List String)) :
    ∀ (fuel : Nat) (acc remaining : List String),
      remaining.length ≤ fuel →
      (∀ n ∈ remaining, ∀ d ∈ preds g n, d ∈ acc ∨ d ∈ remaining) →
      kahnAux g fuel acc remaining = none → HasCycle g := by
  intro fuel
  induction fuel with
  | zero =>
    intro acc remaining hlen _ h
    cases remaining with
    | nil => simp [kahnAux] at h
    | cons n rest => simp at hlen
  | succ fuel ih =>
    intro acc remaining hlen hinv h
    cases remaining with
    | nil => simp [kahnAux] at h
    | cons n rest =>
      rw [kahnAux] at h
      by_cases hrdy : ((n :: rest).filter (fun m =>
          (preds g m).all (fun d => acc.contains d))).isEmpty = true
      · refine cycle_of_succ g (n :: rest) (by simp) ?_
        intro m hm
        have hnm : ¬((preds g m).all (fun d => acc.contains d) = true) := by
          intro hall
          have hmf : m ∈ (n :: rest).filter (fun m2 =>
              (preds g m2).all (fun d => acc.contains d)) :=
            List.mem_filter.mpr ⟨hm, hall⟩
          rw [List.isEmpty_iff.mp hrdy] at hmf
          simp at hmf
        obtain ⟨d, hd, hdn⟩ : ∃ d ∈ preds g m, ¬(acc.contains d = true) := by
          by_contra hno
          push_neg at hno
          exact hnm (List.all_eq_true.mpr hno)
        have hnd2 : d ∉ acc := fun hmem => hdn (List.elem_iff.mpr hmem)
        rcases hinv m hm d hd with hacc2 | hrem
        · exact absurd hacc2 hnd2
        · exact ⟨d, hd, hrem⟩
      · rw [if_neg hrdy] at h
        have hlt : ((n :: rest).filter (fun m =>
            !(((n :: rest).filter (fun m2 =>
              (preds g m2).all (fun d => acc.contains d))).contains m))).length
            < (n :: rest).length := by
          refine List.length_filter_lt_length_iff_exists.mpr ?_
          obtain ⟨r, hr⟩ : ∃ r, r ∈ (n :: rest).filter (fun m2 =>
              (preds g m2).all (fun d => acc.contains d)) := by
            cases hc : (n :: rest).filter (fun m2 =>
                (preds g m2).all (fun d => acc.contains d)) with
            | nil => rw [List.isEmpty_iff] at hrdy; exact absurd hc hrdy
            | cons a b => exact ⟨a, List.mem_cons_self a b⟩
          refine ⟨r, (List.mem_filter.mp hr).1, ?_⟩
          simp only [Bool.not_eq_true, Bool.not_eq_false]
          have h2 : List.contains _ r = true := List.elem_iff.mpr hr
          rw [h2]
          rfl
        refine ih _ _ (by simp only [List.length_cons] at hlt hlen; omega)
          ?_ h
        intro m hm d hd
        have hm2 : m ∈ n :: rest := (List.mem_filter.mp hm).1
        rcases hinv m hm2 d hd with hacc2 | hrem
        · exact Or.inl (List.mem_append_left _ hacc2)
        · cases hc : ((n :: rest).filter (fun m2 =>
              (preds g m2).all (fun d2 => acc.contains d2))).contains d with
          | true =>
            exact Or.inl (List.mem_append_right _ (List.elem_iff.mp hc))
          | false =>
            refine Or.inr (List.mem_filter.mpr ⟨hrem, ?_⟩)
            rw [hc]
            rfl

theorem indexOf_preds_lt (g : List (String × List String))
    (l : List String) (hnd : l.Nodup) (hpc : prefixClosed g l)
    (n d : String) (hn : n ∈ l) (hd : d ∈ preds g n) :
    l.indexOf d < l.indexOf n := by
  have hjn : l.indexOf n < l.length := List.indexOf_lt_length.mpr hn
  have hgetn : l.get ⟨l.indexOf n, hjn⟩ = n := by
    simp [List.get_eq_getElem, List.getElem_indexOf]
  have hd2 : d ∈ l.take (l.indexOf n) := by
    refine hpc (l.indexOf n) hjn d ?_
    rw [hgetn]
    exact hd
  obtain ⟨i, hi, hgi⟩ := List.mem_iff_getElem.mp hd2
  have hitake : i < l.indexOf n := by
    have := hi
    simp only [List.length_take] at this
    omega
  have hil : i < l.length := Nat.lt_trans hitake hjn
  have hgl : l.get ⟨i, hil⟩ = d := by
    rw [List.get_eq_getElem]
    rw [List.getElem_take] at hgi
    exact hgi
  have hidx : l.indexOf d = i := by
    have := List.get_indexOf hnd ⟨i, hil⟩
    rw [hgl] at this
    exact this
  omega

theorem sort_some_not_cycle (g : List (String × List String))
    (l : List String) (h : topological_sort g = some l) : ¬ HasCycle g := by
  have hperm : l.Perm (depNodes g) := by
    have := kahnAux_perm g (depNodes g).length [] (depNodes g) l h
    simpa using this
  have hnd : l.Nodup := hperm.nodup_iff.mpr (nodup_dedupKeepFirst _)
  have hpc : prefixClosed g l :=
    kahnAux_prefixClosed g (depNodes g).length [] (depNodes g) l h
      (by intro j hj; simp at hj)
  rintro ⟨n, hr⟩
  have key : ∀ a b, Reaches g a b →
      a ∈ l ∧ b ∈ l ∧ l.indexOf b < l.indexOf a := by
    intro a b hab
    induction hab with
    | step d hd =>
      have ha : a ∈ l := hperm.mem_iff.mpr
        (key_mem_depNodes g a (List.ne_nil_of_mem hd))
      have hb : d ∈ l := hperm.mem_iff.mpr (dep_mem_depNodes g a d hd)
      exact ⟨ha, hb, indexOf_preds_lt g l hnd hpc a d ha hd⟩
    | trans m d hr2 hd ih =>
      obtain ⟨ha, hm, hlt⟩ := ih
      have hb : d ∈ l := hperm.mem_iff.mpr (dep_mem_depNodes g m d hd)
      exact ⟨ha, hb,
        Nat.lt_trans (indexOf_preds_lt g l hnd hpc m d hm hd) hlt⟩
  exact absurd (key n n hr).2.2 (lt_irrefl _)

/-- C2: for every dependency map containing a cycle, `topological_sort`
raises `CyclicDependencyError` (the `none` result) and produces no list
at all — no partial ordering is returned. -/
theorem topological_sort_cycle_none (g : List (String × List String))
    (hcyc : HasCycle g) : topological_sort g = none := by
  cases h : topological_sort g with
  | none => rfl
  | some l => exact absurd hcyc (sort_some_not_cycle g l h)

/-- C2 witness: the two-node cycle `a → b → a` makes `topological_sort`
fail with no output. -/
theorem topological_sort_cycle_none_witness :
    HasCycle [("a", ["b"]), ("b", ["a"])]
    ∧ topological_sort [("a", ["b"]), ("b", ["a"])] = none :=
  ⟨⟨"a", Reaches.trans "a" "b" "a"
      (Reaches.step "a" "b" (by decide)) (by decide)⟩,
    topological_sort_cycle_none [("a", ["b"]), ("b", ["a"])]
      ⟨"a", Reaches.trans "a" "b" "a"
        (Reaches.step "a" "b" (by decide)) (by decide)⟩⟩

/-- C1 counterexample: the map `{a: {b}}` has exactly one key `a`, but the
output of `topological_sort` is `["b", "a"]`, which is not a permutation
of the key list: the standard library's sorter registers the external
dependency name `b` as a node and emits it too. -/
theorem topological_sort_keys_counterexample :
    topological_sort [("a", ["b"])] = some ["b", "a"]
    ∧ [("a", ["b"])].map Prod.fst = ["a"]
    ∧ ¬ (["b", "a"].Perm ["a"]) := by
  refine ⟨by decide, by decide, ?_⟩
  intro hperm
  have := hperm.length_eq
  simp at this

/-- C1 (amended): for every acyclic dependency map, `topological_sort`
returns a list that is a permutation of all registered nodes — the keys
together with every dependency name referenced by them — and every
dependency of a key occurs strictly before that key in the list. -/
theorem topological_sort_acyclic_spec (g : List (String × List String))
    (hacyc : ¬ HasCycle g) :
    ∃ l, topological_sort g = some l
      ∧ l.Perm (depNodes g)
      ∧ ∀ j (hj : j < l.length), ∀ d ∈ preds g (l.get ⟨j, hj⟩),
          ∃ i, ∃ hi : i < l.length, i < j ∧ l.get ⟨i, hi⟩ = d := by
  cases h : topological_sort g with
  | none =>
    exfalso
    refine hacyc (kahnAux_none_cycle g (depNodes g).length [] (depNodes g)
      le_rfl ?_ h)
    intro n _ d hd
    exact Or.inr (dep_mem_depNodes g n d hd)
  | some l =>
    have hperm : l.Perm (depNodes g) := by
      have := kahnAux_perm g (depNodes g).length [] (depNodes g) l h
      simpa using this
    have hpc : prefixClosed g l :=
      kahnAux_prefixClosed g (depNodes g).length [] (depNodes g) l h
        (by intro j hj; simp at hj)
    refine ⟨l, rfl, hperm, ?_⟩
    intro j hj d hd
    have hd2 : d ∈ l.take j := hpc j hj d hd
    obtain ⟨i, hi, hgi⟩ := List.mem_iff_getElem.mp hd2
    have hij : i < j := by
      have := hi
      simp only [List.length_take] at this
      omega
    have hil : i < l.length := Nat.lt_of_lt_of_le hij (Nat.le_of_lt hj)
    refine ⟨i, hil, hij, ?_⟩
    rw [List.get_eq_getElem]
    rw [List.getElem_take] at hgi
    exact hgi

/-- C1 witness: two images over one external base sort successfully; the
emitted list is a permutation of all three registered nodes and each
image follows the base it references. -/
theorem topological_sort_acyclic_spec_witness :
    (¬ HasCycle [("x", ["base"]), ("y", ["base"])])
    ∧ ∃ l, topological_sort [("x", ["base"]), ("y", ["base"])] = some l
      ∧ l.Perm (depNodes [("x", ["base"]), ("y", ["base"])])
      ∧ ∀ j (hj : j < l.length),
          ∀ d ∈ preds [("x", ["base"]), ("y", ["base"])] (l.get ⟨j, hj⟩),
          ∃ i, ∃ hi : i < l.length, i < j ∧ l.get ⟨i, hi⟩ = d :=
  ⟨sort_some_not_cycle [("x", ["base"]), ("y", ["base"])]
      ["base", "x", "y"] (by decide),
    topological_sort_acyclic_spec [("x", ["base"]), ("y", ["base"])]
      (sort_some_not_cycle [("x", ["base"]), ("y", ["base"])]
        ["base", "x", "y"] (by decide))⟩

end Manager
